import Mathlib

/-!
Shallow embedding of the LyricSlice client-side lyric analyzer
(the `analyzeLyrics` function of `src/lib/analyze-lyrics.ts` and its
helpers), together with theorems settling the specification's claims
about it.

Strings are modelled as `List Char` over the ASCII range: JavaScript's
full Unicode case mapping and Unicode whitespace classes are not
modelled, matching the analyzer's own ASCII-centric regexes
(`[^a-z]`, `[aeiouy]+`, `[^\x5cw]`, `\x5cs`).
-/

abbrev Str := List Char

/-- The whitespace class of JavaScript (ASCII part): space, tab,
newline, carriage return, vertical tab, form feed. -/
def jsIsWhitespace (c : Char) : Bool :=
  c = ' ' || c = '\t' || c = '\n' || c = '\r' || c.toNat = 11 || c.toNat = 12

/-- ASCII `String.prototype.toLowerCase`: map each character in
`A`–`Z` to its lowercase counterpart, leave everything else. -/
def jsToLower (c : Char) : Char :=
  if 65 ≤ c.toNat && c.toNat ≤ 90 then Char.ofNat (c.toNat + 32) else c

/-- Character class `[a-z]` (what `replace(/[^a-z]/g, '')` keeps). -/
def isLowerAlpha (c : Char) : Bool :=
  97 ≤ c.toNat && c.toNat ≤ 122

/-- Character class of the regex word class (`[A-Za-z0-9_]`), which
`replace` with the negated class keeps. -/
def isWordChar (c : Char) : Bool :=
  (97 ≤ c.toNat && c.toNat ≤ 122) || (65 ≤ c.toNat && c.toNat ≤ 90) ||
    (48 ≤ c.toNat && c.toNat ≤ 57) || c = '_'

/-- The vowel class `[aeiouy]` of the syllable counter. -/
def isVowel (c : Char) : Bool :=
  c = 'a' || c = 'e' || c = 'i' || c = 'o' || c = 'u' || c = 'y'

/-- `String.fromCharCode(c.charCodeAt(0) + 1)`. -/
def charSucc (c : Char) : Char := Char.ofNat (c.toNat + 1)

/-- Splitting accumulator: `splitAux p l acc` splits `l` at every
character satisfying `p`, with `acc` the (reversed) current segment.
Like JavaScript `split`, empty segments are kept and the empty input
yields one empty segment. -/
def splitAux (p : Char → Bool) : List Char → List Char → List Str
  | [], acc => [acc.reverse]
  | c :: rest, acc =>
    if p c then acc.reverse :: splitAux p rest [] else splitAux p rest (c :: acc)

/-- `s.split(sep)` where the separator is the character class `p`. -/
def splitOnPred (p : Char → Bool) (s : Str) : List Str := splitAux p s []

/-- `String.prototype.trim` (ASCII whitespace model). -/
def jsTrim (s : Str) : Str :=
  ((s.dropWhile jsIsWhitespace).reverse.dropWhile jsIsWhitespace).reverse

/-- `word.toLowerCase().replace(/[^a-z]/g, '')` in `countSyllables`. -/
def cleanLetters (w : Str) : Str := (w.map jsToLower).filter isLowerAlpha

/-- Number of maximal runs of vowels in a word: the length of
`cleanWord.match(/[aeiouy]+/g)` (0 when there is no match). -/
def vowelRuns : Str → Nat
  | [] => 0
  | [c] => if isVowel c then 1 else 0
  | c :: d :: rest =>
    (if isVowel c && !isVowel d then 1 else 0) + vowelRuns (d :: rest)

/-- `cleanWord.endsWith('e')`. -/
def endsInE (w : Str) : Bool :=
  match w.getLast? with
  | some c => c = 'e'
  | none => false

/-- `countSyllables` from `analyze-lyrics.ts`: vowel-group counting
with the silent-`e` and no-vowel adjustments. -/
def countSyllables (word : Str) : Nat :=
  if word.length = 0 then 0
  else
    let cleanWord := cleanLetters word
    if cleanWord.length = 0 then 0
    else
      let syllableCount := vowelRuns cleanWord
      let afterSilentE :=
        if endsInE cleanWord && decide (1 < syllableCount) then syllableCount - 1
        else syllableCount
      let afterZeroFix :=
        if afterSilentE = 0 && decide (0 < cleanWord.length) then 1 else afterSilentE
      max 1 afterZeroFix

/-- `line.trim().split(/\s+/).filter(w => w.length > 0)`.  JavaScript's
`split(/\s+/)` merges whitespace runs; splitting at every whitespace
character instead only adds empty segments, which the filter removes. -/
def lineWords (line : Str) : List Str :=
  (splitOnPred jsIsWhitespace (jsTrim line)).filter (fun w => 0 < w.length)

/-- `countSyllablesInLine`: sum of the per-word counts via `reduce`. -/
def countSyllablesInLine (line : Str) : Nat :=
  (lineWords line).foldl (fun total word => total + countSyllables word) 0

/-- `getLastWord`: last whitespace-delimited token of the trimmed line
(the trimmed line has no trailing whitespace, so the last raw segment
of the split is the last token, and is empty only for the empty line,
matching `words[words.length - 1] || ''`), lowercased with all
non-word characters removed. -/
def getLastWord (line : Str) : Str :=
  (((splitOnPred jsIsWhitespace (jsTrim line)).getLastD []).map jsToLower).filter isWordChar

/-- `w.slice(-k)` for `k ≥ 1`: the last `min k w.length` characters. -/
def sliceLast (k : Nat) (w : Str) : Str := w.drop (w.length - k)

/-- One iteration of the loop in `wordsRhyme`:
`word1.slice(-len) === word2.slice(-len) && ending.length >= 2`. -/
def suffixMatch (word1 word2 : Str) (len : Nat) : Bool :=
  sliceLast len word1 = sliceLast len word2 && decide (2 ≤ (sliceLast len word1).length)

/-- `wordsRhyme`: both words non-empty and distinct, and the loop over
lengths 4, 3, 2 finds a common ending of length at least 2. -/
def wordsRhyme (word1 word2 : Str) : Bool :=
  if word1 = [] || word2 = [] || word1 = word2 then false
  else [4, 3, 2].any (suffixMatch word1 word2)

/-- The label-counter increment of `analyzeLyrics` (`'A'`–`'Z'`, then
`'AA'`, `'AB'`, …; a trailing `'Z'` of a multi-letter label becomes
`'A'` with an extra `'A'` appended). -/
def nextLabel (label : Str) : Str :=
  if label = ['Z'] then ['A', 'A']
  else if label.length = 1 then [charSucc (label.headD 'A')]
  else
    let lastChar := label.getLastD 'A'
    if lastChar = 'Z' then label.dropLast ++ ['A', 'A']
    else label.dropLast ++ [charSucc lastChar]

/-- State of the rhyme-scheme pass: the ending words already
processed (`seen`, a prefix of `lastWords`), the labels pushed so far
(`scheme`), the exact-word label memo (`usedLabels`, latest binding
first), and the label counter (`rhymeLabel`). -/
structure RState where
  seen : List Str
  scheme : List Str
  memo : List (Str × Str)
  label : Str
deriving DecidableEq

/-- Lookup in the exact-word memo (`usedLabels[lastWord]`); the list
is kept latest-binding-first, so the first hit is the current value. -/
def lookupMemo : List (Str × Str) → Str → Option Str
  | [], _ => none
  | e :: rest, w => if e.1 = w then some e.2 else lookupMemo rest w

/-- The scan over strictly earlier lines: given the `(prevWord,
prevLabel)` pairs in line order, return the label of the first earlier
line with `prevWord && wordsRhyme(lastWord, prevWord)`. -/
def findRhymeMatch (lastWord : Str) : List (Str × Str) → Option Str
  | [] => none
  | p :: rest =>
    if p.1 ≠ [] && wordsRhyme lastWord p.1 then some p.2
    else findRhymeMatch lastWord rest

/-- The body of the `lines.forEach` of the rhyme analysis, for one
line with ending word `w`. -/
def rhymeStep (st : RState) (w : Str) : RState :=
  if w = [] then
    { st with seen := st.seen ++ [w], scheme := st.scheme ++ [['-']] }
  else
    match findRhymeMatch w (st.seen.zip st.scheme) with
    | some prevLabel =>
      { seen := st.seen ++ [w], scheme := st.scheme ++ [prevLabel],
        memo := (w, prevLabel) :: st.memo, label := st.label }
    | none =>
      match lookupMemo st.memo w with
      | some l =>
        { st with seen := st.seen ++ [w], scheme := st.scheme ++ [l] }
      | none =>
        { seen := st.seen ++ [w], scheme := st.scheme ++ [st.label],
          memo := (w, st.label) :: st.memo, label := nextLabel st.label }

/-- Initial rhyme state: no lines processed, `rhymeLabel = 'A'`. -/
def initRState : RState := ⟨[], [], [], ['A']⟩

/-- Run the rhyme-scheme pass over the list of ending words. -/
def runRhyme (ws : List Str) : RState := ws.foldl rhymeStep initRState

/-- The `rhymeScheme` array produced for the given ending words. -/
def rhymeScheme (ws : List Str) : List Str := (runRhyme ws).scheme

/-- `lastWords = lines.map(line => getLastWord(line))`. -/
def lastWords (lines : List Str) : List Str := lines.map getLastWord

/-- Insert a line number into the entry of `label`, or append a fresh
entry; keys keep first-insertion order like JavaScript object keys. -/
def addToMap : List (Str × List Nat) → Str → Nat → List (Str × List Nat)
  | [], label, n => [(label, [n])]
  | e :: rest, label, n =>
    if e.1 = label then (e.1, e.2 ++ [n]) :: rest
    else e :: addToMap rest label n

/-- `rhymeMap`: group 1-based line numbers by label, skipping `'-'`,
entries in first-encounter order. -/
def rhymeMap (scheme : List Str) : List (Str × List Nat) :=
  scheme.enum.foldl
    (fun m p => if p.2 = ['-'] then m else addToMap m p.2 (p.1 + 1)) []

/-- Stable insertion (descending by member count) used to model the
stable `sort((a, b) => b[1].length - a[1].length)`: an element moves
past exactly the entries with strictly more members. -/
def insertDesc (x : Str × List Nat) : List (Str × List Nat) → List (Str × List Nat)
  | [] => [x]
  | y :: ys =>
    if x.2.length < y.2.length then y :: insertDesc x ys else x :: y :: ys

/-- Stable sort by descending member count. -/
def sortDesc : List (Str × List Nat) → List (Str × List Nat)
  | [] => []
  | x :: xs => insertDesc x (sortDesc xs)

/-- `rhymeGroupsList`: the `rhymeMap` entries with more than one line,
sorted by descending member count (stable). -/
def rhymeGroupsList (scheme : List Str) : List (Str × List Nat) :=
  sortDesc ((rhymeMap scheme).filter (fun e => 1 < e.2.length))

/-- Per-line record of the syllable analysis (`{line, text, syllables}`). -/
structure SylDatum where
  line : Nat
  text : Str
  syllables : Nat
deriving DecidableEq

/-- `lines.split('\n').map(trim).filter(nonEmpty)`. -/
def toLines (lyrics : Str) : List Str :=
  ((splitOnPred (fun c => c = '\n') lyrics).map jsTrim).filter (fun l => 0 < l.length)

/-- `syllableData`: line number, text and syllable count per line. -/
def syllableData (lines : List Str) : List SylDatum :=
  lines.enum.map (fun p => ⟨p.1 + 1, p.2, countSyllablesInLine p.2⟩)

/-- `totalSyllables`: `reduce((sum, data) => sum + data.syllables, 0)`. -/
def totalSyllables (lines : List Str) : Nat :=
  (syllableData lines).foldl (fun sum data => sum + data.syllables) 0

/-- Decimal rendering of a natural number (JavaScript template
interpolation of a non-negative integer). -/
def natStr (n : Nat) : Str := (Nat.repr n).data

/-- Modelled from the spec: `Number.prototype.toFixed(1)` applied to
`totalSyllables / lines.length` is not repository code; following the
ECMAScript description (nearest multiple of 1/10, ties to the larger),
it is embedded as exact-rational rounding of `t / c` to one decimal,
half away from zero.  The binary-double detour of the real engine is
not modelled; it can differ only at midpoints `t / c = x.x5`, where
the spec's "rounded to one decimal place" allows either neighbour. -/
def toFixed1 (t c : Nat) : Str :=
  let n := (20 * t + c) / (2 * c)
  natStr (n / 10) ++ ('.' :: natStr (n % 10))

/-- `avgSyllables = (totalSyllables / lines.length).toFixed(1)`. -/
def avgSyllables (lines : List Str) : Str :=
  toFixed1 (totalSyllables lines) lines.length

/-- `Math.min(...syllableData.map(d => d.syllables))` (the lines list
is non-empty whenever this is evaluated). -/
def minSyllables (lines : List Str) : Nat :=
  match (syllableData lines).map (fun d => d.syllables) with
  | [] => 0
  | c :: cs => cs.foldl Nat.min c

/-- `Math.max(...syllableData.map(d => d.syllables))`. -/
def maxSyllables (lines : List Str) : Nat :=
  match (syllableData lines).map (fun d => d.syllables) with
  | [] => 0
  | c :: cs => cs.foldl Nat.max c

/-- `sep`-joined list of strings (`Array.prototype.join`). -/
def joinSep (sep : Str) : List Str → Str
  | [] => []
  | [x] => x
  | x :: xs => x ++ sep ++ joinSep sep xs

/-- One line of the line-by-line breakdown:
`Line <n>: <k> syllable(s) - "<text truncated to 50 chars>"`. -/
def breakdownLine (d : SylDatum) : Str :=
  "Line ".data ++ natStr d.line ++ ": ".data ++ natStr d.syllables ++
    " syllable".data ++ (if d.syllables ≠ 1 then "s".data else []) ++
    " - \"".data ++ d.text.take 50 ++
    (if 50 < d.text.length then "...".data else []) ++ "\"".data

/-- The full `syllableAnalysis` report string. -/
def syllableAnalysisStr (lines : List Str) : Str :=
  "Total Lines: ".data ++ natStr lines.length ++ "\n".data ++
  "Total Syllables: ".data ++ natStr (totalSyllables lines) ++ "\n".data ++
  "Average Syllables per Line: ".data ++ avgSyllables lines ++ "\n".data ++
  "Range: ".data ++ natStr (minSyllables lines) ++ " - ".data ++
    natStr (maxSyllables lines) ++ " syllables\n\n".data ++
  "Line-by-Line Breakdown:\n".data ++
  joinSep "\n".data ((syllableData lines).map breakdownLine)

/-- One entry of the patterns section:
`  <label>: Lines <n1, n2, …> (<k> lines)`. -/
def patternLine (e : Str × List Nat) : Str :=
  "  ".data ++ e.1 ++ ": Lines ".data ++ joinSep ", ".data (e.2.map natStr) ++
    " (".data ++ natStr e.2.length ++ " lines)\n".data

/-- One entry of the detailed mapping:
`Line <n> (<label>): "<line>" - ending: "<word>"`. -/
def mappingLine (scheme : List Str) (p : Nat × Str) : Str :=
  "Line ".data ++ natStr (p.1 + 1) ++ " (".data ++ scheme.getD p.1 [] ++
    "): \"".data ++ p.2 ++ "\" - ending: \"".data ++ getLastWord p.2 ++
    "\"\n".data

/-- The full `rhymeAnalysis` report string. -/
def rhymeAnalysisStr (lines : List Str) : Str :=
  let scheme := rhymeScheme (lastWords lines)
  let groups := rhymeGroupsList scheme
  "Rhyme Scheme: ".data ++ joinSep " ".data scheme ++ "\n\n".data ++
  (if 0 < groups.length then
    "Rhyming Patterns Found:\n".data ++ (groups.map patternLine).flatten
   else "No clear rhyming patterns detected.\n".data) ++
  "\nDetailed Rhyme Mapping:\n".data ++
  (lines.enum.map (mappingLine scheme)).flatten

/-- Result record of `analyzeLyrics`. -/
structure AnalyzeLyricsOutput where
  syllableAnalysis : Str
  rhymeAnalysis : Str
deriving DecidableEq

/-- The sentinel report text for blank input. -/
def noLyrics : Str := "No lyrics provided.".data

/-- The error surfaced when the input guard fires: the guard throws
`Invalid lyrics input: lyrics must be a string` and the surrounding
catch rethrows it wrapped as `Analysis failed: <message>`. -/
def invalidInputError : Str :=
  "Analysis failed: Invalid lyrics input: lyrics must be a string".data

/-- `analyzeLyrics`.  The guard `!lyrics || typeof lyrics !== 'string'`
throws for every falsy `lyrics`; among actual strings (the input is a
string by typing, so the `typeof` disjunct is always false) that is
exactly the empty string.  The rest of the body is total, so the
catch-all rethrow fires only for this guard, surfacing
`invalidInputError`. -/
def analyzeLyrics (lyrics : Str) : Except Str AnalyzeLyricsOutput :=
  if lyrics = [] then Except.error invalidInputError
  else if (jsTrim lyrics).length = 0 then Except.ok ⟨noLyrics, noLyrics⟩
  else
    let lines := toLines lyrics
    if lines.length = 0 then Except.ok ⟨noLyrics, noLyrics⟩
    else Except.ok ⟨syllableAnalysisStr lines, rhymeAnalysisStr lines⟩

/-! ### List helper lemmas -/

theorem getElem?_concat_iff {α : Type} (l : List α) (x a : α) (i : Nat) :
    (l ++ [x])[i]? = some a ↔ l[i]? = some a ∨ (i = l.length ∧ a = x) := by
  rcases lt_trichotomy i l.length with h | h | h
  · rw [List.getElem?_append_left h]
    have : i ≠ l.length := Nat.ne_of_lt h
    simp [this]
  · subst h
    rw [List.getElem?_concat_length]
    simp [List.getElem?_len_le (Nat.le_refl _)]
    exact comm
  · rw [List.getElem?_append_right (Nat.le_of_lt h)]
    have h1 : l[i]? = none := List.getElem?_len_le (Nat.le_of_lt h)
    have h2 : ([x] : List α)[i - l.length]? = none := by
      apply List.getElem?_len_le
      simp
      omega
    simp [h1, h2]
    omega

theorem zip_getElem?_eq_some {α β : Type} (l1 : List α) (l2 : List β) (i : Nat)
    (p : α × β) :
    (l1.zip l2)[i]? = some p ↔ l1[i]? = some p.1 ∧ l2[i]? = some p.2 := by
  induction l1 generalizing l2 i with
  | nil => simp
  | cons a l ih =>
    cases l2 with
    | nil => simp
    | cons b l2 =>
      cases i with
      | zero =>
        simp only [List.zip_cons_cons, List.getElem?_cons_zero, Option.some_inj]
        constructor
        · rintro rfl; exact ⟨rfl, rfl⟩
        · rintro ⟨h1, h2⟩
          cases h1; cases h2
          exact Prod.ext rfl rfl
      | succ i => simpa using ih l2 i

theorem foldl_add_map_sum {α : Type} (f : α → Nat) (l : List α) (a : Nat) :
    l.foldl (fun t x => t + f x) a = a + (l.map f).sum := by
  induction l generalizing a with
  | nil => simp
  | cons x xs ih => simp [ih, Nat.add_assoc]

/-! ### Suffix lemmas for the rhyme comparator -/

theorem sliceLast_length (k : Nat) (w : Str) :
    (sliceLast k w).length = w.length - (w.length - k) := by
  simp [sliceLast, List.length_drop]

theorem sliceLast_of_le {k : Nat} {w : Str} (h : w.length ≤ k) : sliceLast k w = w := by
  have h0 : w.length - k = 0 := by omega
  simp [sliceLast, h0]

theorem sliceLast_sliceLast (j k : Nat) (w : Str) (h : j ≤ k) :
    sliceLast j (sliceLast k w) = sliceLast j w := by
  unfold sliceLast
  rw [List.length_drop, List.drop_drop]
  congr 1
  omega

theorem suffixMatch_iff {w1 w2 : Str} {k : Nat} (h2 : 2 ≤ k) (hne : w1 ≠ w2) :
    suffixMatch w1 w2 k = true ↔
      k ≤ w1.length ∧ k ≤ w2.length ∧ sliceLast k w1 = sliceLast k w2 := by
  unfold suffixMatch
  simp only [Bool.and_eq_true, decide_eq_true_eq]
  constructor
  · rintro ⟨heq, hlen⟩
    have hl1 := sliceLast_length k w1
    have hl2 := sliceLast_length k w2
    have hll : (sliceLast k w1).length = (sliceLast k w2).length := by rw [heq]
    by_cases hk1 : k ≤ w1.length
    · by_cases hk2 : k ≤ w2.length
      · exact ⟨hk1, hk2, heq⟩
      · exfalso; omega
    · exfalso
      have e1 : sliceLast k w1 = w1 := sliceLast_of_le (by omega)
      have hk2 : ¬ k ≤ w2.length := by omega
      have e2 : sliceLast k w2 = w2 := sliceLast_of_le (by omega)
      rw [e1, e2] at heq
      exact hne heq
  · rintro ⟨hk1, hk2, heq⟩
    refine ⟨heq, ?_⟩
    rw [sliceLast_length]
    omega

theorem wordsRhyme_true_iff (w1 w2 : Str) :
    wordsRhyme w1 w2 = true ↔
      w1 ≠ w2 ∧ 2 ≤ w1.length ∧ 2 ≤ w2.length ∧ sliceLast 2 w1 = sliceLast 2 w2 := by
  unfold wordsRhyme
  by_cases hcond : (w1 = [] || w2 = [] || w1 = w2) = true
  · rw [if_pos hcond]
    simp only [Bool.false_eq_true, false_iff]
    rintro ⟨hne, hl1, hl2, _⟩
    simp only [Bool.or_eq_true, decide_eq_true_eq] at hcond
    rcases hcond with (h | h) | h
    · subst h; simp at hl1
    · subst h; simp at hl2
    · exact hne h
  · have hne : w1 ≠ w2 := by
      intro h
      apply hcond
      simp [h]
    rw [if_neg hcond, List.any_eq_true]
    constructor
    · rintro ⟨k, hk, hmatch⟩
      have h2k : 2 ≤ k := by
        simp only [List.mem_cons, List.mem_singleton] at hk
        rcases hk with rfl | rfl | h
        · omega
        · omega
        · simp at h; omega
      rcases (suffixMatch_iff h2k hne).mp hmatch with ⟨hk1, hk2, heq⟩
      refine ⟨hne, by omega, by omega, ?_⟩
      calc sliceLast 2 w1 = sliceLast 2 (sliceLast k w1) :=
            (sliceLast_sliceLast 2 k w1 h2k).symm
        _ = sliceLast 2 (sliceLast k w2) := by rw [heq]
        _ = sliceLast 2 w2 := sliceLast_sliceLast 2 k w2 h2k
    · rintro ⟨_, hl1, hl2, heq⟩
      exact ⟨2, by simp, (suffixMatch_iff (by omega) hne).mpr ⟨hl1, hl2, heq⟩⟩

/-- Modelled from the spec of the refinement claim: rhyme comparison
as a plain last-two-characters test (distinct words of length at
least 2 with equal final two characters). -/
def rhymesByLastTwo (word1 word2 : Str) : Bool :=
  decide (word1 ≠ word2) && decide (2 ≤ word1.length) &&
    decide (2 ≤ word2.length) && decide (sliceLast 2 word1 = sliceLast 2 word2)

/-! ### Claim theorems -/

/-- C5: `wordsRhyme` returns true exactly when both words are
non-empty, not identical, and share an identical suffix of length 4,
3, or 2 characters (the loop tries 4 first, then 3, then 2); identical
words never rhyme. -/
theorem wordsRhyme_suffix_cascade (w1 w2 : Str) :
    wordsRhyme w1 w2 = true ↔
      w1 ≠ [] ∧ w2 ≠ [] ∧ w1 ≠ w2 ∧
        ∃ k, (k = 4 ∨ k = 3 ∨ k = 2) ∧ k ≤ w1.length ∧ k ≤ w2.length ∧
          sliceLast k w1 = sliceLast k w2 := by
  rw [wordsRhyme_true_iff]
  constructor
  · rintro ⟨hne, hl1, hl2, heq⟩
    refine ⟨?_, ?_, hne, 2, by tauto, hl1, hl2, heq⟩
    · intro h; subst h; simp at hl1
    · intro h; subst h; simp at hl2
  · rintro ⟨_, _, hne, k, hk, hk1, hk2, heq⟩
    have h2k : 2 ≤ k := by omega
    refine ⟨hne, by omega, by omega, ?_⟩
    calc sliceLast 2 w1 = sliceLast 2 (sliceLast k w1) :=
          (sliceLast_sliceLast 2 k w1 h2k).symm
      _ = sliceLast 2 (sliceLast k w2) := by rw [heq]
      _ = sliceLast 2 w2 := sliceLast_sliceLast 2 k w2 h2k

/-- C9: the 4-then-3-then-2 suffix cascade of `wordsRhyme` is
extensionally a plain comparison of the last two characters: both
words distinct, of length at least 2, with equal final two
characters. -/
theorem wordsRhyme_refines_lastTwo (w1 w2 : Str) :
    wordsRhyme w1 w2 = rhymesByLastTwo w1 w2 := by
  rw [Bool.eq_iff_iff, wordsRhyme_true_iff]
  unfold rhymesByLastTwo
  simp only [Bool.and_eq_true, decide_eq_true_eq]
  tauto

/-- C1 counterexample: the empty string does not yield the sentinel
pair — the guard `!lyrics || typeof lyrics !== 'string'` is true for
the falsy empty string, so `analyzeLyrics('')` throws, surfaced as the
wrapped `Analysis failed: Invalid lyrics input…` error. -/
theorem analyzeLyrics_empty_input_error_cex :
    analyzeLyrics "".data = Except.error invalidInputError ∧
      analyzeLyrics "".data ≠ Except.ok ⟨noLyrics, noLyrics⟩ := by
  have h1 : analyzeLyrics "".data = Except.error invalidInputError := rfl
  refine ⟨h1, ?_⟩
  intro h
  rw [h1] at h
  exact Except.noConfusion h

/-- C1 (amended): the empty string input raises the wrapped
invalid-input error (the guard is true for the falsy empty string);
every non-empty input that trims to nothing (whitespace-only) or whose
lines are all blank after trimming returns a normal, non-error result
whose two report fields each equal the literal text
`No lyrics provided.`. -/
theorem analyzeLyrics_empty_error_blank_sentinel :
    analyzeLyrics "".data = Except.error invalidInputError ∧
      ∀ lyrics : Str, lyrics ≠ [] →
        (jsTrim lyrics = [] ∨
          ∀ line ∈ splitOnPred (fun c => c = '\n') lyrics, jsTrim line = []) →
        analyzeLyrics lyrics = Except.ok ⟨noLyrics, noLyrics⟩ := by
  refine ⟨rfl, ?_⟩
  intro lyrics hne h
  unfold analyzeLyrics
  rw [if_neg hne]
  by_cases h0 : (jsTrim lyrics).length = 0
  · rw [if_pos h0]
  · rw [if_neg h0]
    rcases h with h | h
    · exact absurd (by rw [h]; rfl) h0
    · have hl : toLines lyrics = [] := by
        unfold toLines
        rw [List.filter_eq_nil_iff]
        intro a ha
        rcases List.mem_map.mp ha with ⟨line, hline, rfl⟩
        simp [h line hline]
      simp [hl]

/-- Witness for the amended C1 at a whitespace-only (non-empty)
input. -/
theorem analyzeLyrics_empty_error_blank_sentinel_witness :
    analyzeLyrics "   ".data = Except.ok ⟨noLyrics, noLyrics⟩ :=
  analyzeLyrics_empty_error_blank_sentinel.2 "   ".data (by decide)
    (Or.inl (by decide))

/-- C2 counterexample: the input `123` is kept as a non-empty line,
yet its reported syllable count is 0, not at least 1 (every character
is stripped by `replace(/[^a-z]/g, '')`, so `countSyllables`
returns 0 for its only word). -/
theorem countSyllablesInLine_min_one_cex :
    toLines "123".data = ["123".data] ∧
      syllableData (toLines "123".data) = [⟨1, "123".data, 0⟩] ∧
      ¬ (∀ d ∈ syllableData (toLines "123".data), 1 ≤ d.syllables) := by
  decide

/-- C2 (amended): the per-line syllable count is at least 1 for every
kept line that has at least one whitespace-delimited word containing a
letter (a word whose cleaned form is non-empty); a line whose words
all clean to empty (e.g. all digits or punctuation) gets count 0. -/
theorem countSyllablesInLine_letter_min_one (line : Str)
    (h : ∃ w ∈ lineWords line, cleanLetters w ≠ []) :
    1 ≤ countSyllablesInLine line := by
  rcases h with ⟨w, hw, hclean⟩
  have h1 : 1 ≤ countSyllables w := by
    unfold countSyllables
    have hwne : ¬ w.length = 0 := by
      intro h0
      rw [List.length_eq_zero] at h0
      subst h0
      exact hclean rfl
    rw [if_neg hwne]
    have hcl : ¬ (cleanLetters w).length = 0 := by
      intro h0
      rw [List.length_eq_zero] at h0
      exact hclean h0
    rw [if_neg hcl]
    exact Nat.le_max_left 1 _
  unfold countSyllablesInLine
  rw [foldl_add_map_sum]
  have h2 : countSyllables w ≤ ((lineWords line).map countSyllables).sum :=
    List.single_le_sum (fun x _ => Nat.zero_le x) _ (List.mem_map_of_mem _ hw)
  omega

/-- Witness for the amended C2 on the line `cat`. -/
theorem countSyllablesInLine_letter_min_one_witness :
    (∃ w ∈ lineWords "cat".data, cleanLetters w ≠ []) ∧
      1 ≤ countSyllablesInLine "cat".data :=
  ⟨by decide, countSyllablesInLine_letter_min_one "cat".data (by decide)⟩

/-- C6: the per-word syllable count follows the clean / vowel-run /
silent-e / zero-fix / max-1 pipeline described by the spec (an empty
cleaned word counts 0), and the per-line count is the sum of per-word
counts over the whitespace-split tokens with empty tokens discarded. -/
theorem syllableCount_spec :
    (∀ w : Str, countSyllables w =
      (if cleanLetters w = [] then 0
       else
         let runs := vowelRuns (cleanLetters w)
         let adjusted :=
           if endsInE (cleanLetters w) = true ∧ 1 < runs then runs - 1 else runs
         max 1 (if adjusted = 0 then 1 else adjusted))) ∧
    (∀ line : Str, countSyllablesInLine line =
      ((lineWords line).map countSyllables).sum) := by
  constructor
  · intro w
    unfold countSyllables
    by_cases hw : w.length = 0
    · rw [if_pos hw]
      rw [List.length_eq_zero] at hw
      subst hw
      have : cleanLetters ([] : Str) = [] := rfl
      rw [if_pos this]
    · rw [if_neg hw]
      by_cases hc : (cleanLetters w).length = 0
      · rw [if_pos hc]
        rw [List.length_eq_zero] at hc
        rw [if_pos hc]
      · rw [if_neg hc]
        have hcne : ¬ cleanLetters w = [] := by
          intro h0
          apply hc
          rw [h0]
          rfl
        rw [if_neg hcne]
        dsimp only
        congr 1
        by_cases he : endsInE (cleanLetters w) = true ∧ 1 < vowelRuns (cleanLetters w)
        · have hb : (endsInE (cleanLetters w) &&
              decide (1 < vowelRuns (cleanLetters w))) = true := by
            simp [he.1, he.2]
          rw [if_pos hb, if_pos he]
          by_cases hz : vowelRuns (cleanLetters w) - 1 = 0
          · have : (decide (vowelRuns (cleanLetters w) - 1 = 0) &&
                decide (0 < (cleanLetters w).length)) = true := by
              simp [hz]
              omega
            rw [if_pos this, if_pos hz]
          · have : ¬ (decide (vowelRuns (cleanLetters w) - 1 = 0) &&
                decide (0 < (cleanLetters w).length)) = true := by
              simp [hz]
            rw [if_neg this, if_neg hz]
        · have hb : ¬ (endsInE (cleanLetters w) &&
              decide (1 < vowelRuns (cleanLetters w))) = true := by
            simp only [Bool.and_eq_true, decide_eq_true_eq]
            exact he
          rw [if_neg hb, if_neg he]
          by_cases hz : vowelRuns (cleanLetters w) = 0
          · have : (decide (vowelRuns (cleanLetters w) = 0) &&
                decide (0 < (cleanLetters w).length)) = true := by
              simp [hz]
              omega
            rw [if_pos this, if_pos hz]
          · have : ¬ (decide (vowelRuns (cleanLetters w) = 0) &&
                decide (0 < (cleanLetters w).length)) = true := by
              simp [hz]
            rw [if_neg this, if_neg hz]
  · intro line
    unfold countSyllablesInLine
    rw [foldl_add_map_sum]
    omega

/-- C3 counterexample: the label counter does not continue `…, AZ, BA,
…` — after `AZ` (the 52nd label, i.e. 51 increments from `A`) the next
label is `AAA`, because a multi-letter label ending in `Z` has its
trailing `Z` replaced by `A` with an extra `A` appended. -/
theorem labelCounter_after_AZ_cex :
    Nat.iterate nextLabel 51 ['A'] = "AZ".data ∧
      nextLabel "AZ".data = "AAA".data ∧
      Nat.iterate nextLabel 52 ['A'] ≠ "BA".data := by
  decide

/-- C3 (amended): freshly minted labels come from a counter starting
at `A` yielding in order `A`–`Z` (the (k+1)-th label, k < 26, is the
letter with code 65+k), the 27th is `AA`, then `AB`, …, `AZ`, and the
53rd is `AAA` (not `BA`); in particular, on an input of 27 distinct
mutually non-rhyming ending words, the 27th assigned label is `AA`. -/
theorem labelCounter_sequence :
    (∀ k, k < 26 → Nat.iterate nextLabel k ['A'] = [Char.ofNat (65 + k)]) ∧
      Nat.iterate nextLabel 26 ['A'] = "AA".data ∧
      (∀ k, k < 26 → Nat.iterate nextLabel (26 + k) ['A'] = ['A', Char.ofNat (65 + k)]) ∧
      Nat.iterate nextLabel 52 ['A'] = "AAA".data ∧
      (rhymeScheme (lastWords (toLines
        "a\nb\nc\nd\ne\nf\ng\nh\ni\nj\nk\nl\nm\nn\no\np\nq\nr\ns\nt\nu\nv\nw\nx\ny\nz\n0".data)))[26]?
        = some "AA".data := by
  refine ⟨by decide, by decide, by decide, by decide, by decide⟩

/-- Witness for the amended C3: 25 increments from `A` give `Z`. -/
theorem labelCounter_sequence_witness :
    Nat.iterate nextLabel 25 ['A'] = [Char.ofNat (65 + 25)] :=
  labelCounter_sequence.1 25 (by decide)

/-- C7: for every non-empty lines list, the reported total syllable
count equals the sum of the per-line counts of the breakdown, and the
reported average renders a numerator `n` of tenths with
`|n/10 − total/count| ≤ 1/20` (the inequalities below are that bound
cleared of denominators), i.e. total/count rounded to one decimal. -/
theorem syllableReport_totals (lines : List Str) (h : lines ≠ []) :
    totalSyllables lines = ((syllableData lines).map (fun d => d.syllables)).sum ∧
      ∃ n, avgSyllables lines = natStr (n / 10) ++ ('.' :: natStr (n % 10)) ∧
        n * (2 * lines.length) ≤ 20 * totalSyllables lines + lines.length ∧
        20 * totalSyllables lines + lines.length < (n + 1) * (2 * lines.length) := by
  have hc : 0 < lines.length := List.length_pos.mpr h
  constructor
  · unfold totalSyllables
    rw [foldl_add_map_sum]
    exact Nat.zero_add _
  · refine ⟨(20 * totalSyllables lines + lines.length) / (2 * lines.length),
      rfl, Nat.div_mul_le_self _ _, ?_⟩
    have h1 := Nat.div_add_mod (20 * totalSyllables lines + lines.length)
      (2 * lines.length)
    have h2 := Nat.mod_lt (20 * totalSyllables lines + lines.length)
      (y := 2 * lines.length) (by omega)
    nlinarith

/-- Witness for C7 on the single line `cat`. -/
theorem syllableReport_totals_witness :
    totalSyllables ["cat".data] =
        ((syllableData ["cat".data]).map (fun d => d.syllables)).sum ∧
      ∃ n, avgSyllables ["cat".data] = natStr (n / 10) ++ ('.' :: natStr (n % 10)) ∧
        n * (2 * (["cat".data] : List Str).length) ≤
          20 * totalSyllables ["cat".data] + (["cat".data] : List Str).length ∧
        20 * totalSyllables ["cat".data] + (["cat".data] : List Str).length <
          (n + 1) * (2 * (["cat".data] : List Str).length) :=
  syllableReport_totals ["cat".data] (by decide)

/-! ### Stable descending sort lemmas (for the patterns section) -/

theorem mem_insertDesc {x a : Str × List Nat} {l : List (Str × List Nat)} :
    a ∈ insertDesc x l ↔ a = x ∨ a ∈ l := by
  induction l with
  | nil => simp [insertDesc]
  | cons y ys ih =>
    unfold insertDesc
    by_cases h : x.2.length < y.2.length
    · rw [if_pos h]
      simp only [List.mem_cons, ih]
      tauto
    · rw [if_neg h]
      simp only [List.mem_cons]

theorem mem_sortDesc {a : Str × List Nat} {l : List (Str × List Nat)} :
    a ∈ sortDesc l ↔ a ∈ l := by
  induction l with
  | nil => simp [sortDesc]
  | cons x xs ih =>
    show a ∈ insertDesc x (sortDesc xs) ↔ _
    rw [mem_insertDesc, ih]
    simp

theorem pairwise_insertDesc {x : Str × List Nat} {l : List (Str × List Nat)}
    (h : l.Pairwise (fun a b => b.2.length ≤ a.2.length)) :
    (insertDesc x l).Pairwise (fun a b => b.2.length ≤ a.2.length) := by
  induction l with
  | nil => simp [insertDesc]
  | cons y ys ih =>
    rcases List.pairwise_cons.mp h with ⟨hy, hys⟩
    unfold insertDesc
    by_cases hlt : x.2.length < y.2.length
    · rw [if_pos hlt]
      rw [List.pairwise_cons]
      constructor
      · intro a ha
        rcases mem_insertDesc.mp ha with rfl | ha
        · omega
        · exact hy a ha
      · exact ih hys
    · rw [if_neg hlt]
      rw [List.pairwise_cons]
      constructor
      · intro a ha
        rcases List.mem_cons.mp ha with rfl | ha
        · omega
        · have := hy a ha
          omega
      · exact h

theorem pairwise_sortDesc (l : List (Str × List Nat)) :
    (sortDesc l).Pairwise (fun a b => b.2.length ≤ a.2.length) := by
  induction l with
  | nil => simp [sortDesc]
  | cons x xs ih => exact pairwise_insertDesc ih

theorem insertDesc_filter (x : Str × List Nat) (l : List (Str × List Nat)) (s : Nat) :
    (insertDesc x l).filter (fun g => g.2.length = s) =
      (x :: l).filter (fun g => g.2.length = s) := by
  induction l with
  | nil => simp [insertDesc]
  | cons y ys ih =>
    unfold insertDesc
    by_cases hlt : x.2.length < y.2.length
    · rw [if_pos hlt]
      by_cases hx : x.2.length = s
      · have hy : ¬ y.2.length = s := by omega
        simp [List.filter_cons, hx, hy, ih]
      · simp [List.filter_cons, hx, ih]
    · rw [if_neg hlt]

theorem sortDesc_filter (l : List (Str × List Nat)) (s : Nat) :
    (sortDesc l).filter (fun g => g.2.length = s) =
      l.filter (fun g => g.2.length = s) := by
  induction l with
  | nil => simp [sortDesc]
  | cons x xs ih =>
    show (insertDesc x (sortDesc xs)).filter _ = _
    rw [insertDesc_filter]
    simp [List.filter_cons, ih]

/-- C8: the "Rhyming Patterns Found" groups are exactly the rhyme
groups with at least 2 member lines, in descending group size;
equal-size groups keep their first-encountered order (the filter by
any fixed size is unchanged by the sort); when no group has at least 2
members, the report contains the no-clear-rhyming-patterns message. -/
theorem rhymePatterns_section (lines : List Str) :
    (∀ g ∈ rhymeGroupsList (rhymeScheme (lastWords lines)), 2 ≤ g.2.length) ∧
      (rhymeGroupsList (rhymeScheme (lastWords lines))).Pairwise
        (fun a b => b.2.length ≤ a.2.length) ∧
      (∀ s, (rhymeGroupsList (rhymeScheme (lastWords lines))).filter
          (fun g => g.2.length = s) =
        ((rhymeMap (rhymeScheme (lastWords lines))).filter
          (fun g => 1 < g.2.length)).filter (fun g => g.2.length = s)) ∧
      (rhymeGroupsList (rhymeScheme (lastWords lines)) = [] →
        ∃ pre post, rhymeAnalysisStr lines =
          pre ++ "No clear rhyming patterns detected.\n".data ++ post) := by
  refine ⟨?_, ?_, ?_, ?_⟩
  · intro g hg
    unfold rhymeGroupsList at hg
    have hmem := mem_sortDesc.mp hg
    have := List.mem_filter.mp hmem
    have h2 : (1 < g.2.length) = true := by
      have := this.2
      simpa using this
    simp at h2
    omega
  · exact pairwise_sortDesc _
  · intro s
    unfold rhymeGroupsList
    exact sortDesc_filter _ s
  · intro hgl
    unfold rhymeAnalysisStr
    refine ⟨"Rhyme Scheme: ".data ++
      joinSep " ".data (rhymeScheme (lastWords lines)) ++ "\n\n".data,
      "\nDetailed Rhyme Mapping:\n".data ++
        (lines.enum.map (mappingLine (rhymeScheme (lastWords lines)))).flatten, ?_⟩
    dsimp only
    rw [hgl]
    simp [List.append_assoc]

/-- Witness for C8 on two non-rhyming lines (no pattern groups). -/
theorem rhymePatterns_section_witness :
    ∃ pre post, rhymeAnalysisStr ["cat".data, "dog".data] =
      pre ++ "No clear rhyming patterns detected.\n".data ++ post :=
  (rhymePatterns_section ["cat".data, "dog".data]).2.2.2 (by decide)

/-! ### Rhyme-pass step lemmas -/

theorem lookupMemo_cons (k v : Str) (m : List (Str × Str)) (u : Str) :
    lookupMemo ((k, v) :: m) u = if k = u then some v else lookupMemo m u := rfl

theorem rhymeStep_empty_word (st : RState) :
    rhymeStep st [] =
      { st with seen := st.seen ++ [[]], scheme := st.scheme ++ [['-']] } := by
  unfold rhymeStep
  rw [if_pos rfl]

theorem rhymeStep_rhyme_match (st : RState) (w l : Str) (hw : w ≠ [])
    (h : findRhymeMatch w (st.seen.zip st.scheme) = some l) :
    rhymeStep st w =
      ⟨st.seen ++ [w], st.scheme ++ [l], (w, l) :: st.memo, st.label⟩ := by
  unfold rhymeStep
  rw [if_neg hw, h]

theorem rhymeStep_memo_hit (st : RState) (w l : Str) (hw : w ≠ [])
    (h1 : findRhymeMatch w (st.seen.zip st.scheme) = none)
    (h2 : lookupMemo st.memo w = some l) :
    rhymeStep st w = ⟨st.seen ++ [w], st.scheme ++ [l], st.memo, st.label⟩ := by
  unfold rhymeStep
  rw [if_neg hw, h1, h2]

theorem rhymeStep_fresh (st : RState) (w : Str) (hw : w ≠ [])
    (h1 : findRhymeMatch w (st.seen.zip st.scheme) = none)
    (h2 : lookupMemo st.memo w = none) :
    rhymeStep st w =
      ⟨st.seen ++ [w], st.scheme ++ [st.label], (w, st.label) :: st.memo,
        nextLabel st.label⟩ := by
  unfold rhymeStep
  rw [if_neg hw, h1, h2]

theorem rhymeStep_seen (st : RState) (w : Str) :
    (rhymeStep st w).seen = st.seen ++ [w] := by
  unfold rhymeStep
  by_cases hw : w = []
  · rw [if_pos hw, hw]
  · rw [if_neg hw]
    cases findRhymeMatch w (st.seen.zip st.scheme) with
    | some l => rfl
    | none =>
      cases lookupMemo st.memo w with
      | some l => rfl
      | none => rfl

theorem rhymeStep_scheme_length (st : RState) (w : Str) :
    (rhymeStep st w).scheme.length = st.scheme.length + 1 := by
  unfold rhymeStep
  by_cases hw : w = []
  · rw [if_pos hw]
    simp
  · rw [if_neg hw]
    cases findRhymeMatch w (st.seen.zip st.scheme) with
    | some l => simp
    | none =>
      cases lookupMemo st.memo w with
      | some l => simp
      | none => simp

theorem runRhyme_concat (ws : List Str) (w : Str) :
    runRhyme (ws ++ [w]) = rhymeStep (runRhyme ws) w := by
  unfold runRhyme
  rw [List.foldl_append]
  rfl

theorem foldl_rhymeStep_seen (ws : List Str) :
    ∀ st : RState, (ws.foldl rhymeStep st).seen = st.seen ++ ws := by
  induction ws with
  | nil => intro st; simp
  | cons w rest ih =>
    intro st
    rw [List.foldl_cons, ih, rhymeStep_seen, List.append_assoc]
    rfl

theorem runRhyme_seen (ws : List Str) : (runRhyme ws).seen = ws := by
  unfold runRhyme
  rw [foldl_rhymeStep_seen]
  rfl

/-- The linear scan finds the first matching pair: `some l` exactly
when some pair at index `j` matches, all pairs before `j` do not, and
`l` is that pair's label. -/
theorem findRhymeMatch_some_iff (w : Str) (pairs : List (Str × Str)) (l : Str) :
    findRhymeMatch w pairs = some l ↔
      ∃ (j : Nat) (p : Str × Str),
        pairs[j]? = some p ∧ p.1 ≠ [] ∧ wordsRhyme w p.1 = true ∧ l = p.2 ∧
        ∀ (k : Nat) (q : Str × Str), k < j → pairs[k]? = some q →
          ¬(q.1 ≠ [] ∧ wordsRhyme w q.1 = true) := by
  induction pairs with
  | nil => simp [findRhymeMatch]
  | cons q rest ih =>
    unfold findRhymeMatch
    by_cases hq : (decide ¬q.1 = [] && wordsRhyme w q.1) = true
    · rw [if_pos hq]
      simp only [Bool.and_eq_true, decide_eq_true_eq] at hq
      constructor
      · intro h
        rcases Option.some_inj.mp h with rfl
        exact ⟨0, q, by simp, hq.1, hq.2, rfl, by omega⟩
      · rintro ⟨j, p, hj, hp1, hp2, hl, hmin⟩
        cases j with
        | zero =>
          simp only [List.getElem?_cons_zero, Option.some_inj] at hj
          subst hj
          rw [hl]
        | succ j =>
          exact absurd ⟨hq.1, hq.2⟩ (hmin 0 q (by omega) (by simp))
    · rw [if_neg hq]
      rw [ih]
      simp only [Bool.and_eq_true, decide_eq_true_eq, not_and] at hq
      constructor
      · rintro ⟨j, p, hj, hp1, hp2, hl, hmin⟩
        refine ⟨j + 1, p, by simpa using hj, hp1, hp2, hl, ?_⟩
        intro k q2 hk hkq
        cases k with
        | zero =>
          simp only [List.getElem?_cons_zero, Option.some_inj] at hkq
          subst hkq
          rintro ⟨h1, h2⟩
          exact absurd h2 (by simpa using hq h1)
        | succ k =>
          exact hmin k q2 (by omega) (by simpa using hkq)
      · rintro ⟨j, p, hj, hp1, hp2, hl, hmin⟩
        cases j with
        | zero =>
          simp only [List.getElem?_cons_zero, Option.some_inj] at hj
          subst hj
          exact absurd hp2 (by simpa using hq hp1)
        | succ j =>
          refine ⟨j, p, by simpa using hj, hp1, hp2, hl, ?_⟩
          intro k q2 hk hkq
          exact hmin (k + 1) q2 (by omega) (by simpa using hkq)

theorem findRhymeMatch_none_iff (w : Str) (pairs : List (Str × Str)) :
    findRhymeMatch w pairs = none ↔
      ∀ (k : Nat) (p : Str × Str), pairs[k]? = some p →
        ¬(p.1 ≠ [] ∧ wordsRhyme w p.1 = true) := by
  induction pairs with
  | nil => simp [findRhymeMatch]
  | cons q rest ih =>
    unfold findRhymeMatch
    by_cases hq : (decide ¬q.1 = [] && wordsRhyme w q.1) = true
    · rw [if_pos hq]
      simp only [Bool.and_eq_true, decide_eq_true_eq] at hq
      constructor
      · intro h; cases h
      · intro h
        exact absurd ⟨hq.1, hq.2⟩ (h 0 q (by simp))
    · rw [if_neg hq]
      rw [ih]
      simp only [Bool.and_eq_true, decide_eq_true_eq, not_and] at hq
      constructor
      · intro h k p hk
        cases k with
        | zero =>
          simp only [List.getElem?_cons_zero, Option.some_inj] at hk
          subst hk
          rintro ⟨h1, h2⟩
          exact absurd h2 (by simpa using hq h1)
        | succ k => exact h k p (by simpa using hk)
      · intro h k p hk
        exact h (k + 1) p (by simpa using hk)

/-! ### The memo/label invariant of the rhyme pass -/

theorem getElem?_some_lt {α : Type} {l : List α} {a : α} {i : Nat}
    (h : l[i]? = some a) : i < l.length :=
  (List.getElem?_eq_some.mp h).1

theorem getElem?_concat_left {α : Type} {l : List α} {x a : α} {i : Nat}
    (h : l[i]? = some a) : (l ++ [x])[i]? = some a := by
  rw [List.getElem?_append_left (getElem?_some_lt h)]
  exact h

theorem getElem?_concat_cases {α : Type} {l : List α} {x a : α} {i : Nat}
    (h : (l ++ [x])[i]? = some a) : l[i]? = some a ∨ (i = l.length ∧ a = x) :=
  (getElem?_concat_iff l x a i).mp h

theorem getElem?_concat_self {α : Type} (l : List α) (x : α) {i : Nat}
    (h : i = l.length) : (l ++ [x])[i]? = some x := by
  subst h
  exact List.getElem?_concat_length l x

/-- Invariant of the rhyme pass: the scheme is aligned with the
processed words; memo keys are non-empty words that occurred; every
processed position whose word is memoized carries the memoized label;
every processed non-empty word is memoized; and any two processed
words of length at least 2 with equal last two characters carry equal
labels. -/
def MemoInv (st : RState) : Prop :=
  st.scheme.length = st.seen.length ∧
  (∀ u l : Str, lookupMemo st.memo u = some l → u ≠ []) ∧
  (∀ u l : Str, lookupMemo st.memo u = some l → ∃ i : Nat, st.seen[i]? = some u) ∧
  (∀ (u l : Str) (i : Nat) (l2 : Str), lookupMemo st.memo u = some l →
    st.seen[i]? = some u → st.scheme[i]? = some l2 → l2 = l) ∧
  (∀ (i : Nat) (u : Str), st.seen[i]? = some u → u ≠ [] →
    ∃ l : Str, lookupMemo st.memo u = some l) ∧
  (∀ (i j : Nat) (u v li lj : Str), st.seen[i]? = some u → st.seen[j]? = some v →
    2 ≤ u.length → 2 ≤ v.length → sliceLast 2 u = sliceLast 2 v →
    st.scheme[i]? = some li → st.scheme[j]? = some lj → li = lj)

theorem memoInv_init : MemoInv initRState := by
  unfold MemoInv initRState
  refine ⟨rfl, ?_, ?_, ?_, ?_, ?_⟩
  · intro u l h
    cases h
  · intro u l h
    cases h
  · intro u l i l2 h
    cases h
  · intro i u h
    cases h
  · intro i j u v li lj h
    cases h

theorem memoInv_step {st : RState} (w : Str) (hinv : MemoInv st) :
    MemoInv (rhymeStep st w) := by
  obtain ⟨hlen, hkeys, hkeyseen, hmemoval, hseenmemo, hclass⟩ := hinv
  by_cases hw : w = []
  · subst hw
    rw [rhymeStep_empty_word]
    refine ⟨by simp [hlen], hkeys, ?_, ?_, ?_, ?_⟩
    · intro u l h
      rcases hkeyseen u l h with ⟨i, hi⟩
      exact ⟨i, getElem?_concat_left hi⟩
    · intro u l i l2 hm hsi hsc
      have hu : u ≠ [] := hkeys u l hm
      rcases getElem?_concat_cases hsi with hold | ⟨hieq, rfl⟩
      · have hi := getElem?_some_lt hold
        rw [List.getElem?_append_left (by omega : i < st.scheme.length)] at hsc
        exact hmemoval u l i l2 hm hold hsc
      · exact absurd rfl hu
    · intro i u hsi hu
      rcases getElem?_concat_cases hsi with hold | ⟨hieq, rfl⟩
      · exact hseenmemo i u hold hu
      · exact absurd rfl hu
    · intro i j u v li lj hsi hsj hu hv heq hsci hscj
      rcases getElem?_concat_cases hsi with hiold | ⟨hieq, rfl⟩
      swap
      · simp at hu
      rcases getElem?_concat_cases hsj with hjold | ⟨hjeq, rfl⟩
      swap
      · simp at hv
      have hi := getElem?_some_lt hiold
      have hj := getElem?_some_lt hjold
      rw [List.getElem?_append_left (by omega : i < st.scheme.length)] at hsci
      rw [List.getElem?_append_left (by omega : j < st.scheme.length)] at hscj
      exact hclass i j u v li lj hiold hjold hu hv heq hsci hscj
  · cases hfind : findRhymeMatch w (st.seen.zip st.scheme) with
    | some l =>
      rw [rhymeStep_rhyme_match st w l hw hfind]
      rcases (findRhymeMatch_some_iff w (st.seen.zip st.scheme) l).mp hfind with
        ⟨m, p, hzip, hp1, hp2, hlp, hmin⟩
      obtain ⟨hm1, hm2⟩ := (zip_getElem?_eq_some st.seen st.scheme m p).mp hzip
      rcases (wordsRhyme_true_iff w p.1).mp hp2 with ⟨hwp1, hwlen, hp1len, hlast⟩
      refine ⟨by simp [hlen], ?_, ?_, ?_, ?_, ?_⟩
      · intro u l' h
        rw [lookupMemo_cons] at h
        by_cases huw : w = u
        · subst huw
          exact hw
        · rw [if_neg huw] at h
          exact hkeys u l' h
      · intro u l' h
        rw [lookupMemo_cons] at h
        by_cases huw : w = u
        · subst huw
          exact ⟨st.seen.length, getElem?_concat_self st.seen w rfl⟩
        · rw [if_neg huw] at h
          rcases hkeyseen u l' h with ⟨i, hi⟩
          exact ⟨i, getElem?_concat_left hi⟩
      · intro u l' i l2 hm hsi hsc
        rw [lookupMemo_cons] at hm
        by_cases huw : w = u
        · subst huw
          rw [if_pos rfl] at hm
          have hl' : l' = l := (Option.some_inj.mp hm).symm
          subst hl'
          subst hlp
          rcases getElem?_concat_cases hsi with hold | ⟨hieq, _⟩
          · have hi := getElem?_some_lt hold
            rw [List.getElem?_append_left (by omega : i < st.scheme.length)] at hsc
            exact hclass i m w p.1 l2 p.2 hold hm1 hwlen hp1len hlast hsc hm2
          · have hsc2 : (st.scheme ++ [p.2])[i]? = some p.2 :=
              getElem?_concat_self st.scheme p.2 (by omega)
            rw [hsc] at hsc2
            exact Option.some_inj.mp hsc2
        · rw [if_neg huw] at hm
          rcases getElem?_concat_cases hsi with hold | ⟨hieq, hueq⟩
          · have hi := getElem?_some_lt hold
            rw [List.getElem?_append_left (by omega : i < st.scheme.length)] at hsc
            exact hmemoval u l' i l2 hm hold hsc
          · exact absurd hueq.symm huw
      · intro i u hsi hu
        rcases getElem?_concat_cases hsi with hold | ⟨hieq, rfl⟩
        · by_cases huw : w = u
          · exact ⟨l, by rw [lookupMemo_cons, if_pos huw]⟩
          · rcases hseenmemo i u hold hu with ⟨l'', h''⟩
            exact ⟨l'', by rw [lookupMemo_cons, if_neg huw]; exact h''⟩
        · exact ⟨l, by rw [lookupMemo_cons, if_pos rfl]⟩
      · intro i j u v li lj hsi hsj hu hv heq hsci hscj
        subst hlp
        rcases getElem?_concat_cases hsi with hiold | ⟨hieq, hueq⟩
        · rcases getElem?_concat_cases hsj with hjold | ⟨hjeq, hveq⟩
          · have hi := getElem?_some_lt hiold
            have hj := getElem?_some_lt hjold
            rw [List.getElem?_append_left (by omega : i < st.scheme.length)] at hsci
            rw [List.getElem?_append_left (by omega : j < st.scheme.length)] at hscj
            exact hclass i j u v li lj hiold hjold hu hv heq hsci hscj
          · have hlj : lj = p.2 := by
              have h2 : (st.scheme ++ [p.2])[j]? = some p.2 :=
                getElem?_concat_self st.scheme p.2 (by omega)
              rw [hscj] at h2
              exact Option.some_inj.mp h2
            have hi := getElem?_some_lt hiold
            rw [List.getElem?_append_left (by omega : i < st.scheme.length)] at hsci
            have hli : li = p.2 := by
              refine hclass i m u p.1 li p.2 hiold hm1 hu hp1len ?_ hsci hm2
              calc sliceLast 2 u = sliceLast 2 v := heq
                _ = sliceLast 2 w := by rw [hveq]
                _ = sliceLast 2 p.1 := hlast
            rw [hli, hlj]
        · rcases getElem?_concat_cases hsj with hjold | ⟨hjeq, hveq⟩
          · have hli : li = p.2 := by
              have h2 : (st.scheme ++ [p.2])[i]? = some p.2 :=
                getElem?_concat_self st.scheme p.2 (by omega)
              rw [hsci] at h2
              exact Option.some_inj.mp h2
            have hj := getElem?_some_lt hjold
            rw [List.getElem?_append_left (by omega : j < st.scheme.length)] at hscj
            have hlj : lj = p.2 := by
              refine hclass j m v p.1 lj p.2 hjold hm1 hv hp1len ?_ hscj hm2
              calc sliceLast 2 v = sliceLast 2 u := heq.symm
                _ = sliceLast 2 w := by rw [hueq]
                _ = sliceLast 2 p.1 := hlast
            rw [hli, hlj]
          · have hij : i = j := by omega
            subst hij
            rw [hsci] at hscj
            exact Option.some_inj.mp hscj
    | none =>
      have hnone := (findRhymeMatch_none_iff w (st.seen.zip st.scheme)).mp hfind
      have hforce : ∀ (j : Nat) (v : Str), st.seen[j]? = some v → 2 ≤ w.length →
          2 ≤ v.length → sliceLast 2 w = sliceLast 2 v → v = w := by
        intro j v hsj hwl hvl heq
        have hj := getElem?_some_lt hsj
        have hscj : st.scheme[j]? = some (st.scheme.get ⟨j, by omega⟩) := by
          rw [List.getElem?_eq_getElem (by omega : j < st.scheme.length)]
          rfl
        have hzipj : (st.seen.zip st.scheme)[j]? =
            some (v, st.scheme.get ⟨j, by omega⟩) :=
          (zip_getElem?_eq_some st.seen st.scheme j _).mpr ⟨hsj, hscj⟩
        have hnot := hnone j _ hzipj
        by_contra hne
        apply hnot
        constructor
        · show v ≠ []
          intro h0
          rw [h0] at hvl
          simp at hvl
        · show wordsRhyme w v = true
          exact (wordsRhyme_true_iff w v).mpr ⟨fun h => hne h.symm, hwl, hvl, heq⟩
      cases hlook : lookupMemo st.memo w with
      | some l =>
        rw [rhymeStep_memo_hit st w l hw hfind hlook]
        refine ⟨by simp [hlen], hkeys, ?_, ?_, ?_, ?_⟩
        · intro u l' h
          rcases hkeyseen u l' h with ⟨i, hi⟩
          exact ⟨i, getElem?_concat_left hi⟩
        · intro u l' i l2 hm hsi hsc
          rcases getElem?_concat_cases hsi with hold | ⟨hieq, hueq⟩
          · have hi := getElem?_some_lt hold
            rw [List.getElem?_append_left (by omega : i < st.scheme.length)] at hsc
            exact hmemoval u l' i l2 hm hold hsc
          · have hl' : l' = l := by
              rw [hueq, hlook] at hm
              exact (Option.some_inj.mp hm).symm
            have h2 : (st.scheme ++ [l])[i]? = some l :=
              getElem?_concat_self st.scheme l (by omega)
            rw [hsc] at h2
            rw [hl']
            exact Option.some_inj.mp h2
        · intro i u hsi hu
          rcases getElem?_concat_cases hsi with hold | ⟨hieq, rfl⟩
          · exact hseenmemo i u hold hu
          · exact ⟨l, hlook⟩
        · intro i j u v li lj hsi hsj hu hv heq hsci hscj
          rcases getElem?_concat_cases hsi with hiold | ⟨hieq, hueq⟩
          · rcases getElem?_concat_cases hsj with hjold | ⟨hjeq, hveq⟩
            · have hi := getElem?_some_lt hiold
              have hj := getElem?_some_lt hjold
              rw [List.getElem?_append_left (by omega : i < st.scheme.length)] at hsci
              rw [List.getElem?_append_left (by omega : j < st.scheme.length)] at hscj
              exact hclass i j u v li lj hiold hjold hu hv heq hsci hscj
            · have hlj : lj = l := by
                have h2 : (st.scheme ++ [l])[j]? = some l :=
                  getElem?_concat_self st.scheme l (by omega)
                rw [hscj] at h2
                exact Option.some_inj.mp h2
              have huw : u = w :=
                hforce i u hiold (hveq ▸ hv) hu (by rw [← hveq]; exact heq.symm)
              rw [huw] at hiold
              have hi := getElem?_some_lt hiold
              rw [List.getElem?_append_left (by omega : i < st.scheme.length)] at hsci
              have hli : li = l := hmemoval w l i li hlook hiold hsci
              rw [hli, hlj]
          · rcases getElem?_concat_cases hsj with hjold | ⟨hjeq, hveq⟩
            · have hli : li = l := by
                have h2 : (st.scheme ++ [l])[i]? = some l :=
                  getElem?_concat_self st.scheme l (by omega)
                rw [hsci] at h2
                exact Option.some_inj.mp h2
              have hvw : v = w :=
                hforce j v hjold (hueq ▸ hu) hv (by rw [← hueq]; exact heq)
              rw [hvw] at hjold
              have hj := getElem?_some_lt hjold
              rw [List.getElem?_append_left (by omega : j < st.scheme.length)] at hscj
              have hlj : lj = l := hmemoval w l j lj hlook hjold hscj
              rw [hli, hlj]
            · have hij : i = j := by omega
              subst hij
              rw [hsci] at hscj
              exact Option.some_inj.mp hscj
      | none =>
        rw [rhymeStep_fresh st w hw hfind hlook]
        refine ⟨by simp [hlen], ?_, ?_, ?_, ?_, ?_⟩
        · intro u l' h
          rw [lookupMemo_cons] at h
          by_cases huw : w = u
          · subst huw
            exact hw
          · rw [if_neg huw] at h
            exact hkeys u l' h
        · intro u l' h
          rw [lookupMemo_cons] at h
          by_cases huw : w = u
          · subst huw
            exact ⟨st.seen.length, getElem?_concat_self st.seen w rfl⟩
          · rw [if_neg huw] at h
            rcases hkeyseen u l' h with ⟨i, hi⟩
            exact ⟨i, getElem?_concat_left hi⟩
        · intro u l' i l2 hm hsi hsc
          rw [lookupMemo_cons] at hm
          by_cases huw : w = u
          · subst huw
            rw [if_pos rfl] at hm
            have hl' : l' = st.label := (Option.some_inj.mp hm).symm
            subst hl'
            rcases getElem?_concat_cases hsi with hold | ⟨hieq, _⟩
            · exfalso
              rcases hseenmemo i w hold hw with ⟨l'', h''⟩
              rw [hlook] at h''
              cases h''
            · have h2 : (st.scheme ++ [st.label])[i]? = some st.label :=
                getElem?_concat_self st.scheme st.label (by omega)
              rw [hsc] at h2
              exact Option.some_inj.mp h2
          · rw [if_neg huw] at hm
            rcases getElem?_concat_cases hsi with hold | ⟨hieq, hueq⟩
            · have hi := getElem?_some_lt hold
              rw [List.getElem?_append_left (by omega : i < st.scheme.length)] at hsc
              exact hmemoval u l' i l2 hm hold hsc
            · exact absurd hueq.symm huw
        · intro i u hsi hu
          rcases getElem?_concat_cases hsi with hold | ⟨hieq, rfl⟩
          · by_cases huw : w = u
            · exact ⟨st.label, by rw [lookupMemo_cons, if_pos huw]⟩
            · rcases hseenmemo i u hold hu with ⟨l'', h''⟩
              exact ⟨l'', by rw [lookupMemo_cons, if_neg huw]; exact h''⟩
          · exact ⟨st.label, by rw [lookupMemo_cons, if_pos rfl]⟩
        · intro i j u v li lj hsi hsj hu hv heq hsci hscj
          rcases getElem?_concat_cases hsi with hiold | ⟨hieq, hueq⟩
          · rcases getElem?_concat_cases hsj with hjold | ⟨hjeq, hveq⟩
            · have hi := getElem?_some_lt hiold
              have hj := getElem?_some_lt hjold
              rw [List.getElem?_append_left (by omega : i < st.scheme.length)] at hsci
              rw [List.getElem?_append_left (by omega : j < st.scheme.length)] at hscj
              exact hclass i j u v li lj hiold hjold hu hv heq hsci hscj
            · exfalso
              have huw : u = w :=
                hforce i u hiold (hveq ▸ hv) hu (by rw [← hveq]; exact heq.symm)
              rw [huw] at hiold
              rcases hseenmemo i w hiold hw with ⟨l'', h''⟩
              rw [hlook] at h''
              cases h''
          · rcases getElem?_concat_cases hsj with hjold | ⟨hjeq, hveq⟩
            · exfalso
              have hvw : v = w :=
                hforce j v hjold (hueq ▸ hu) hv (by rw [← hueq]; exact heq)
              rw [hvw] at hjold
              rcases hseenmemo j w hjold hw with ⟨l'', h''⟩
              rw [hlook] at h''
              cases h''
            · have hij : i = j := by omega
              subst hij
              rw [hsci] at hscj
              exact Option.some_inj.mp hscj

theorem memoInv_run (ws : List Str) : MemoInv (runRhyme ws) := by
  suffices h : ∀ (l : List Str) (st : RState), MemoInv st →
      MemoInv (l.foldl rhymeStep st) by
    exact h ws initRState memoInv_init
  intro l
  induction l with
  | nil => intro st hst; exact hst
  | cons w rest ih =>
    intro st hst
    rw [List.foldl_cons]
    exact ih (rhymeStep st w) (memoInv_step w hst)

/-- C10: for every input, any two kept lines whose extracted ending
words are identical and non-empty are assigned the same rhyme label,
whether each label came from the earlier-line rhyme scan, the
exact-word memo, or fresh minting. -/
theorem equal_endings_equal_labels (lyrics : Str) (i j : Nat) (u l1 l2 : Str)
    (hu : u ≠ [])
    (hi : (lastWords (toLines lyrics))[i]? = some u)
    (hj : (lastWords (toLines lyrics))[j]? = some u)
    (h1 : (rhymeScheme (lastWords (toLines lyrics)))[i]? = some l1)
    (h2 : (rhymeScheme (lastWords (toLines lyrics)))[j]? = some l2) :
    l1 = l2 := by
  obtain ⟨_, _, _, hmemoval, hseenmemo, _⟩ := memoInv_run (lastWords (toLines lyrics))
  have hseen := runRhyme_seen (lastWords (toLines lyrics))
  rw [hseen] at hmemoval hseenmemo
  unfold rhymeScheme at h1 h2
  rcases hseenmemo i u hi hu with ⟨l, hl⟩
  have e1 := hmemoval u l i l1 hl hi h1
  have e2 := hmemoval u l j l2 hl hj h2
  rw [e1, e2]

/-- Witness for C10 on `cat`/`dog`/`cat` (labels A, B, A). -/
theorem equal_endings_equal_labels_witness :
    (lastWords (toLines "cat\ndog\ncat".data))[0]? = some "cat".data ∧
      (lastWords (toLines "cat\ndog\ncat".data))[2]? = some "cat".data ∧
      (rhymeScheme (lastWords (toLines "cat\ndog\ncat".data)))[0]? = some "A".data ∧
      (rhymeScheme (lastWords (toLines "cat\ndog\ncat".data)))[2]? = some "A".data ∧
      ("A".data : Str) = "A".data :=
  ⟨by decide, by decide, by decide, by decide,
    equal_endings_equal_labels "cat\ndog\ncat".data 0 2 "cat".data "A".data "A".data
      (by decide) (by decide) (by decide) (by decide) (by decide)⟩

/-- C4: rhyme labels are assigned in one left-to-right pass, one label
per line (the scheme is as long as the word list); an empty ending
word pushes `-` touching neither memo nor counter; otherwise the first
(earliest) rhyming earlier line's label is reused and memoized; else a
memoized label of the identical earlier ending word is reused (the
memo holds exactly labels of lines that occurred); else the fresh
counter label is pushed, memoized, and the counter advanced. -/
theorem rhymeAssignment_single_pass :
    (∀ ws : List Str, (runRhyme ws).seen = ws ∧
      (rhymeScheme ws).length = ws.length) ∧
    (∀ (ws : List Str) (w : Str),
      runRhyme (ws ++ [w]) = rhymeStep (runRhyme ws) w) ∧
    (∀ st : RState, rhymeStep st [] =
      { st with seen := st.seen ++ [[]], scheme := st.scheme ++ [['-']] }) ∧
    (∀ (st : RState) (w l : Str), w ≠ [] →
      findRhymeMatch w (st.seen.zip st.scheme) = some l →
      rhymeStep st w =
        ⟨st.seen ++ [w], st.scheme ++ [l], (w, l) :: st.memo, st.label⟩) ∧
    (∀ (st : RState) (w l : Str), w ≠ [] →
      findRhymeMatch w (st.seen.zip st.scheme) = none →
      lookupMemo st.memo w = some l →
      rhymeStep st w = ⟨st.seen ++ [w], st.scheme ++ [l], st.memo, st.label⟩) ∧
    (∀ (st : RState) (w : Str), w ≠ [] →
      findRhymeMatch w (st.seen.zip st.scheme) = none →
      lookupMemo st.memo w = none →
      rhymeStep st w = ⟨st.seen ++ [w], st.scheme ++ [st.label],
        (w, st.label) :: st.memo, nextLabel st.label⟩) ∧
    (∀ (w : Str) (pairs : List (Str × Str)) (l : Str),
      findRhymeMatch w pairs = some l ↔
        ∃ (j : Nat) (p : Str × Str),
          pairs[j]? = some p ∧ p.1 ≠ [] ∧ wordsRhyme w p.1 = true ∧ l = p.2 ∧
          ∀ (k : Nat) (q : Str × Str), k < j → pairs[k]? = some q →
            ¬(q.1 ≠ [] ∧ wordsRhyme w q.1 = true)) ∧
    (∀ (ws : List Str) (u l : Str), lookupMemo (runRhyme ws).memo u = some l →
      u ≠ [] ∧ ∃ i : Nat, ws[i]? = some u ∧ (rhymeScheme ws)[i]? = some l) := by
  refine ⟨?_, runRhyme_concat, rhymeStep_empty_word, rhymeStep_rhyme_match,
    rhymeStep_memo_hit, rhymeStep_fresh, findRhymeMatch_some_iff, ?_⟩
  · intro ws
    obtain ⟨hlen, _, _, _, _, _⟩ := memoInv_run ws
    have hseen := runRhyme_seen ws
    refine ⟨hseen, ?_⟩
    unfold rhymeScheme
    rw [hlen, hseen]
  · intro ws u l hm
    obtain ⟨hlen, hkeys, hkeyseen, hmemoval, _, _⟩ := memoInv_run ws
    have hseen := runRhyme_seen ws
    refine ⟨hkeys u l hm, ?_⟩
    rcases hkeyseen u l hm with ⟨i, hi⟩
    have hilt := getElem?_some_lt hi
    have hsc : (runRhyme ws).scheme[i]? =
        some ((runRhyme ws).scheme.get ⟨i, by omega⟩) := by
      rw [List.getElem?_eq_getElem (by omega : i < (runRhyme ws).scheme.length)]
      rfl
    have hval := hmemoval u l i _ hm hi hsc
    rw [hval] at hsc
    refine ⟨i, ?_, ?_⟩
    · rw [← hseen]
      exact hi
    · unfold rhymeScheme
      exact hsc

/-- Witness for C4: the fresh-mint step on the first line `cat`. -/
theorem rhymeAssignment_single_pass_witness :
    rhymeStep initRState "cat".data =
      ⟨initRState.seen ++ ["cat".data], initRState.scheme ++ [initRState.label],
        ("cat".data, initRState.label) :: initRState.memo,
        nextLabel initRState.label⟩ :=
  rhymeAssignment_single_pass.2.2.2.2.2.1 initRState "cat".data (by decide)
    (by decide) (by decide)
